import Mathlib

set_option linter.unusedSectionVars false

/-!
Verification of the `ordered_map` container of `src/ordered_map.h`.

The header defines two class templates:

* `compare_helper<Key, Index, Compare>` — a binary predicate over keys that
  resolves each key to its sequence number through a pointer to an external
  `std::map<Key, Index>` (the Index Ledger) and compares the two numbers with
  an injected comparator `Compare` (by default `std::less<Index>`).

* `ordered_map<Key, T, ...>` — a facade around `std::map<Key, T, compare_helper>`
  (the Primary Store `map_`), together with the ledger `keys_` and a counter
  `index_`.  Every mutator first updates the ledger (`add_index` /
  `remove_index`) and then performs the store operation, so that the store's
  tree order is the order of first insertion.

The embedding below is element-level: `std::map<Key, Index>` becomes an
association list with unique keys, and the comparator-ordered
`std::map<Key, T, compare_helper>` becomes a list sorted by the comparator,
listed in iteration order (`begin()` to `end()`).  A `std::map` search
(insert / find / erase by key) walks the structure comparing the probe key
against stored keys; in the list model this is a left-to-right scan.  The C++
comparator dereferences both ledger lookups unconditionally (`lhs_->second`,
`rhs_->second`, src lines 40–43); when a lookup failed, that dereferences the
ledger's end iterator — a fatal precondition violation (undefined behavior).
The embedding makes every operation that may run such a comparison return an
`Option`, with `none` marking exactly "the comparator was invoked with a key
that has no ledger entry".  Sequence numbers (`Index = uint64_t`) are modelled
as `Nat`: the counter only ever increments, and no claim involves wrap-around
at `2^64`.
-/

universe u v

/-- The Index Ledger `std::map<Key, Index>` (member `keys_`), embedded as an
association list with unique keys.  Only lookup, membership, size,
no-overwrite insertion and erasure of this map are observable through the
container, so the ledger's own (key-ordered) iteration order is irrelevant;
new entries are appended at the tail. -/
abbrev Ledger (Key : Type u) := List (Key × Nat)

/-- The Primary Store `std::map<Key, T, compare_helper>` (member `map_`),
embedded as the list of its entries in iteration order. -/
abbrev Store (Key : Type u) (A : Type v) := List (Key × A)

variable {Key : Type u} {A : Type v} [DecidableEq Key]

/-- Ledger lookup `keys_->find(k)`, with `none` for the end iterator. -/
def ledgerFind (ks : Ledger Key) (k : Key) : Option Nat :=
  match ks with
  | [] => none
  | (k', i) :: rest => if k' = k then some i else ledgerFind rest k

/-- Ledger insertion `keys_.insert({k, i})`: `std::map::insert` leaves the map
unchanged when the key is already present. -/
def ledgerInsert (ks : Ledger Key) (k : Key) (i : Nat) : Ledger Key :=
  match ks with
  | [] => [(k, i)]
  | (k', j) :: rest =>
    if k' = k then (k', j) :: rest else (k', j) :: ledgerInsert rest k i

/-- Ledger erasure `keys_.erase(k)`. -/
def ledgerErase (ks : Ledger Key) (k : Key) : Ledger Key :=
  match ks with
  | [] => []
  | (k', j) :: rest => if k' = k then rest else (k', j) :: ledgerErase rest k

/-- The call `compare_helper::operator()(lhs, rhs)` (src lines 38–44): look
both keys up in the ledger `*keys_` and apply the injected comparator `cmp_`
to `lhs_->second` and `rhs_->second`.  The C++ code dereferences both lookup
results unconditionally; if either lookup failed this dereferences the end
iterator, which the embedding records as `none`. -/
def compare_helper (cmp : Nat → Nat → Bool) (ks : Ledger Key)
    (lhs rhs : Key) : Option Bool :=
  match ledgerFind ks lhs, ledgerFind ks rhs with
  | some i, some j => some (cmp i j)
  | _, _ => none

/-- The default injected comparator `Compare = std::less<Index>`. -/
def ascending (i j : Nat) : Bool := decide (i < j)

/-- Store insertion `map_.insert(value)` under comparator `c`: locate the
insertion point in the sorted entry list; when an equivalent key is found
(neither `c k k'` nor `c k' k`) the store is unchanged and the returned flag is
`false`, mirroring the `bool` of the returned `std::pair<iterator, bool>`.
`none` propagates a comparator precondition violation. -/
def storeInsert (c : Key → Key → Option Bool) (k : Key) (v : A) :
    Store Key A → Option (Store Key A × Bool)
  | [] => some ([(k, v)], true)
  | (k', v') :: rest =>
    match c k k' with
    | none => none
    | some true => some ((k, v) :: (k', v') :: rest, true)
    | some false =>
      match c k' k with
      | none => none
      | some true =>
        match storeInsert c k v rest with
        | none => none
        | some (r, b) => some ((k', v') :: r, b)
      | some false => some ((k', v') :: rest, false)

/-- Store lookup `map_.find(k)` under comparator `c`: the inner `none` is the
end iterator, `some (k', v')` an iterator to the entry holding the equivalent
key; the outer `none` is a comparator precondition violation. -/
def storeFind (c : Key → Key → Option Bool) (k : Key) :
    Store Key A → Option (Option (Key × A))
  | [] => some none
  | (k', v') :: rest =>
    match c k k' with
    | none => none
    | some true => some none
    | some false =>
      match c k' k with
      | none => none
      | some true => storeFind c k rest
      | some false => some (some (k', v'))

/-- Store erasure `map_.erase(k)` under comparator `c`, returning the new
entry list and the number of erased elements (`0` or `1` for `std::map`). -/
def storeErase (c : Key → Key → Option Bool) (k : Key) :
    Store Key A → Option (Store Key A × Nat)
  | [] => some ([], 0)
  | (k', v') :: rest =>
    match c k k' with
    | none => none
    | some true => some ((k', v') :: rest, 0)
    | some false =>
      match c k' k with
      | none => none
      | some true =>
        match storeErase c k rest with
        | none => none
        | some (r, n) => some ((k', v') :: r, n)
      | some false => some (rest, 1)

/-- Result of `ordered_map::at` (src 106–107): either the mapped value, the
`std::out_of_range` raised by `std::map::at` on a failed search, or the fatal
comparator precondition violation hit during the search itself. -/
inductive AtResult (A : Type v) where
  | ok (v : A)
  | outOfRange
  | cmpViolation
deriving DecidableEq

/-- State of one `ordered_map<Key, T>` object (data members, src 275–278):
the Index Ledger `keys_`, the Primary Store `map_` in iteration order, and the
Sequence Counter `index_` (initialised to `0`).  The member `compare_` always
holds `&keys_` (constructors, src 82–97) and owns no data of its own, so it
does not appear as a field; the separate model `SwapWorld` below tracks where
such comparator back-pointers aim when two objects are swapped. -/
structure ordered_map (Key : Type u) (A : Type v) where
  keys_ : Ledger Key
  map_ : Store Key A
  index_ : Nat
deriving DecidableEq

namespace ordered_map

variable {Key : Type u} {A : Type v} [DecidableEq Key]

/-- The default constructor (src 82–87): both maps empty, counter `0`. -/
def empty : ordered_map Key A := ⟨[], [], 0⟩

/-- The comparator `compare_` bound to this container's ledger: it holds
`&keys_` and reads the ledger at each comparison. -/
def cmp (m : ordered_map Key A) : Key → Key → Option Bool :=
  compare_helper ascending m.keys_

/-- Private helper `add_index(key)` (src 272): `keys_.insert({key, index_++})`.
The argument pair is built before `std::map::insert` runs, so the
post-increment of `index_` takes effect on every call, also when the ledger
insertion is a no-op because the key is present. -/
def add_index (m : ordered_map Key A) (k : Key) : ordered_map Key A :=
  { m with keys_ := ledgerInsert m.keys_ k m.index_, index_ := m.index_ + 1 }

/-- Private helper `remove_index(key)` (src 273): `keys_.erase(key)`. -/
def remove_index (m : ordered_map Key A) (k : Key) : ordered_map Key A :=
  { m with keys_ := ledgerErase m.keys_ k }

/-- Public `insert(value)` (src 159–163): `add_index(value.first)` and then
`map_.insert(value)`.  Returns the updated container and the `bool` of the
returned pair. -/
def insert (m : ordered_map Key A) (k : Key) (v : A) :
    Option (ordered_map Key A × Bool) :=
  let m1 := add_index m k
  match storeInsert m1.cmp k v m1.map_ with
  | none => none
  | some (s, b) => some ({ m1 with map_ := s }, b)

/-- Public `emplace(args...)` (src 199–205): the `value_type` is constructed
from the arguments, then `add_index(value.first)` and `map_.emplace` run —
observably the same as `insert`. -/
def emplace (m : ordered_map Key A) (k : Key) (v : A) :
    Option (ordered_map Key A × Bool) :=
  let m1 := add_index m k
  match storeInsert m1.cmp k v m1.map_ with
  | none => none
  | some (s, b) => some ({ m1 with map_ := s }, b)

/-- Public `operator[](key)` (src 109–113): `add_index(key)` and then
`map_[key]`, where `std::map::operator[]` inserts a default-constructed mapped
value when the key is absent; `d` stands for that default-constructed `T{}`. -/
def getOrInsert (m : ordered_map Key A) (k : Key) (d : A) :
    Option (ordered_map Key A) :=
  let m1 := add_index m k
  match storeInsert m1.cmp k d m1.map_ with
  | none => none
  | some (s, _) => some { m1 with map_ := s }

/-- Public `find(key)` (src 244–245): `map_.find(key)`. -/
def find (m : ordered_map Key A) (k : Key) : Option (Option (Key × A)) :=
  storeFind m.cmp k m.map_

/-- Public `at(key)` (src 106–107): `map_.at(key)` performs the same search as
`find` and raises `std::out_of_range` when the search ends at `end()`. -/
def at' (m : ordered_map Key A) (k : Key) : AtResult A :=
  match storeFind m.cmp k m.map_ with
  | none => AtResult.cmpViolation
  | some none => AtResult.outOfRange
  | some (some p) => AtResult.ok p.2

/-- Public `erase(key)` (src 228–234): erase from the store first; only when
something was removed (`res > 0`) is the ledger entry removed.  Returns the
updated container and the erased-element count. -/
def erase (m : ordered_map Key A) (k : Key) :
    Option (ordered_map Key A × Nat) :=
  match storeErase m.cmp k m.map_ with
  | none => none
  | some (s, n) =>
    let m1 : ordered_map Key A := { m with map_ := s }
    some (if 0 < n then m1.remove_index k else m1, n)

/-- Public `clear()` (src 153–157): clears `map_` and `keys_`; the counter
`index_` is not touched. -/
def clear (m : ordered_map Key A) : ordered_map Key A :=
  { m with map_ := [], keys_ := [] }

/-- Public `size()` (src 150): `map_.size()`. -/
def size (m : ordered_map Key A) : Nat := m.map_.length

/-- Public `keys()` (src 121–130): build `std::vector<Key> k(keys_.size())` —
sized by the LEDGER — then `std::transform` over `begin()..end()` writes the
store's keys, in iteration order, into the vector's front.  Were the store
larger than the ledger, the transform would write past the vector's end
(undefined behavior, `none` here); were it smaller, the tail would keep its
default-constructed keys. -/
def keys [Inhabited Key] (m : ordered_map Key A) : Option (List Key) :=
  if m.map_.length ≤ m.keys_.length then
    some (m.map_.map Prod.fst ++
      List.replicate (m.keys_.length - m.map_.length) default)
  else none

/-- One completed public mutating call.  The range and initializer-list
constructors and inserts (src 89–104, 184–197) loop over single insertions,
so sequences of these operations also cover every constructor.  `getOp k d`
is `operator[](k)` with `d` the default-constructed mapped value. -/
inductive Op (Key : Type u) (A : Type v) where
  | insOp (k : Key) (v : A)
  | emplOp (k : Key) (v : A)
  | getOp (k : Key) (d : A)
  | eraseOp (k : Key)
  | clearOp

/-- Run one public call, keeping the resulting container state. -/
def runOp (m : ordered_map Key A) : Op Key A → Option (ordered_map Key A)
  | Op.insOp k v => (insert m k v).map Prod.fst
  | Op.emplOp k v => (emplace m k v).map Prod.fst
  | Op.getOp k d => getOrInsert m k d
  | Op.eraseOp k => (erase m k).map Prod.fst
  | Op.clearOp => some (clear m)

/-- Run a sequence of public calls. -/
def runOps (m : ordered_map Key A) :
    List (Op Key A) → Option (ordered_map Key A)
  | [] => some m
  | op :: ops =>
    match runOp m op with
    | none => none
    | some m' => runOps m' ops

/-- States produced from a freshly constructed container by a sequence of
completed public operations. -/
def Reachable (m : ordered_map Key A) : Prop :=
  ∃ ops : List (Op Key A), runOps empty ops = some m

end ordered_map

/-- Sequence number of `k` as the store's comparator reads it (defaulting to
`0`; only ever used where the lookup is known to succeed). -/
def gidx (ks : Ledger Key) (k : Key) : Nat := (ledgerFind ks k).getD 0

/-- Invariant tying the three data members together: ledger keys and sequence
numbers are unique, every assigned number is below the counter, every store
key resolves in the ledger, the store is strictly sorted by resolved sequence
number, and every ledger key is a store key. -/
def MapInv (m : ordered_map Key A) : Prop :=
  (m.keys_.map Prod.fst).Nodup ∧
  (m.keys_.map Prod.snd).Nodup ∧
  (∀ p ∈ m.keys_, p.2 < m.index_) ∧
  (∀ p ∈ m.map_, (ledgerFind m.keys_ p.1).isSome = true) ∧
  m.map_.Pairwise (fun p q => gidx m.keys_ p.1 < gidx m.keys_ q.1) ∧
  (∀ k, k ∈ m.keys_.map Prod.fst → k ∈ m.map_.map Prod.fst)

/-! ### Ledger lemmas -/

theorem ledgerFind_eq_none_iff (ks : Ledger Key) (k : Key) :
    ledgerFind ks k = none ↔ k ∉ ks.map Prod.fst := by
  induction ks with
  | nil => simp [ledgerFind]
  | cons p rest ih =>
    obtain ⟨k', i⟩ := p
    by_cases h : k' = k
    · subst h
      simp [ledgerFind]
    · have h' : ¬ k = k' := fun hh => h hh.symm
      simp [ledgerFind, h, ih, h']

theorem ledgerFind_isSome_iff (ks : Ledger Key) (k : Key) :
    (ledgerFind ks k).isSome = true ↔ k ∈ ks.map Prod.fst := by
  rw [Option.isSome_iff_ne_none, ne_eq, ledgerFind_eq_none_iff, not_not]

theorem ledgerFind_mem (ks : Ledger Key) (k : Key) (i : Nat)
    (h : ledgerFind ks k = some i) : (k, i) ∈ ks := by
  induction ks with
  | nil => simp [ledgerFind] at h
  | cons p rest ih =>
    obtain ⟨k', j⟩ := p
    by_cases hk : k' = k
    · subst hk
      simp [ledgerFind] at h
      simp [h]
    · simp [ledgerFind, hk] at h
      exact List.mem_cons_of_mem _ (ih h)

theorem ledgerFind_of_mem (ks : Ledger Key) (k : Key) (i : Nat)
    (hnd : (ks.map Prod.fst).Nodup) (h : (k, i) ∈ ks) :
    ledgerFind ks k = some i := by
  induction ks with
  | nil => cases h
  | cons p rest ih =>
    obtain ⟨k', j⟩ := p
    rcases List.mem_cons.mp h with h1 | h1
    · obtain ⟨rfl, rfl⟩ := Prod.mk.injEq .. ▸ h1
      simp [ledgerFind]
    · have hk : k' ≠ k := by
        rintro rfl
        exact (List.nodup_cons.mp hnd).1
          (List.mem_map.mpr ⟨(k', i), h1, rfl⟩)
      simp [ledgerFind, hk]
      exact ih (List.nodup_cons.mp hnd).2 h1

theorem ledgerInsert_of_found (ks : Ledger Key) (k : Key) (i : Nat)
    (h : (ledgerFind ks k).isSome = true) : ledgerInsert ks k i = ks := by
  induction ks with
  | nil => simp [ledgerFind] at h
  | cons p rest ih =>
    obtain ⟨k', j⟩ := p
    by_cases hk : k' = k
    · simp [ledgerInsert, hk]
    · simp [ledgerFind, hk] at h
      simp [ledgerInsert, hk, ih h]

theorem ledgerInsert_of_not_found (ks : Ledger Key) (k : Key) (i : Nat)
    (h : ledgerFind ks k = none) : ledgerInsert ks k i = ks ++ [(k, i)] := by
  induction ks with
  | nil => simp [ledgerInsert]
  | cons p rest ih =>
    obtain ⟨k', j⟩ := p
    by_cases hk : k' = k
    · simp [ledgerFind, hk] at h
    · simp [ledgerFind, hk] at h
      simp [ledgerInsert, hk, ih h]

theorem ledgerFind_append_of_none (ks1 ks2 : Ledger Key) (k : Key)
    (h : ledgerFind ks1 k = none) :
    ledgerFind (ks1 ++ ks2) k = ledgerFind ks2 k := by
  induction ks1 with
  | nil => simp
  | cons p rest ih =>
    obtain ⟨k', j⟩ := p
    by_cases hk : k' = k
    · simp [ledgerFind, hk] at h
    · simp [ledgerFind, hk] at h ⊢
      exact ih h

theorem ledgerFind_append_of_some (ks1 ks2 : Ledger Key) (k : Key) (i : Nat)
    (h : ledgerFind ks1 k = some i) :
    ledgerFind (ks1 ++ ks2) k = some i := by
  induction ks1 with
  | nil => simp [ledgerFind] at h
  | cons p rest ih =>
    obtain ⟨k', j⟩ := p
    by_cases hk : k' = k
    · simp [ledgerFind, hk] at h ⊢
      exact h
    · simp [ledgerFind, hk] at h ⊢
      exact ih h

theorem ledgerFind_append_singleton_self (ks : Ledger Key) (k : Key) (i : Nat)
    (h : ledgerFind ks k = none) :
    ledgerFind (ks ++ [(k, i)]) k = some i := by
  rw [ledgerFind_append_of_none _ _ _ h]
  simp [ledgerFind]

theorem ledgerFind_append_singleton_ne (ks : Ledger Key) (k k' : Key) (i : Nat)
    (hne : k' ≠ k) :
    ledgerFind (ks ++ [(k, i)]) k' = ledgerFind ks k' := by
  cases h : ledgerFind ks k' with
  | none =>
    rw [ledgerFind_append_of_none _ _ _ h]
    have h' : ¬ k = k' := fun hh => hne hh.symm
    simp [ledgerFind, h']
  | some j => exact ledgerFind_append_of_some _ _ _ _ h

theorem ledgerErase_sublist (ks : Ledger Key) (k : Key) :
    (ledgerErase ks k).Sublist ks := by
  induction ks with
  | nil => simp [ledgerErase]
  | cons p rest ih =>
    obtain ⟨k', j⟩ := p
    by_cases hk : k' = k
    · simp only [ledgerErase, if_pos hk]
      exact List.sublist_cons_self _ _
    · simp only [ledgerErase, if_neg hk]
      exact List.Sublist.cons₂ _ ih

theorem ledgerFind_ledgerErase_self (ks : Ledger Key) (k : Key)
    (hnd : (ks.map Prod.fst).Nodup) :
    ledgerFind (ledgerErase ks k) k = none := by
  induction ks with
  | nil => simp [ledgerErase, ledgerFind]
  | cons p rest ih =>
    obtain ⟨k', j⟩ := p
    by_cases hk : k' = k
    · subst hk
      simp only [ledgerErase, if_pos rfl]
      exact (ledgerFind_eq_none_iff _ _).mpr (List.nodup_cons.mp hnd).1
    · simp [ledgerErase, hk, ledgerFind]
      exact ih (List.nodup_cons.mp hnd).2

theorem ledgerFind_ledgerErase_ne (ks : Ledger Key) (k k' : Key)
    (hne : k' ≠ k) :
    ledgerFind (ledgerErase ks k) k' = ledgerFind ks k' := by
  induction ks with
  | nil => simp [ledgerErase]
  | cons p rest ih =>
    obtain ⟨a, j⟩ := p
    by_cases hk : a = k
    · subst hk
      have ha' : ¬ a = k' := fun hh => hne hh.symm
      simp [ledgerErase, ledgerFind, ha']
    · simp only [ledgerErase, if_neg hk, ledgerFind]
      by_cases ha : a = k'
      · simp [ha]
      · simp [ha, ih]

theorem ledger_snd_inj (ks : Ledger Key) (a b : Key) (i : Nat)
    (hnd : (ks.map Prod.snd).Nodup)
    (ha : (a, i) ∈ ks) (hb : (b, i) ∈ ks) : a = b := by
  induction ks with
  | nil => cases ha
  | cons p rest ih =>
    obtain ⟨hd1, hd2⟩ := List.nodup_cons.mp hnd
    rcases List.mem_cons.mp ha with h1 | h1 <;>
      rcases List.mem_cons.mp hb with h2 | h2
    · exact congrArg Prod.fst (h1.trans h2.symm)
    · exfalso
      apply hd1
      rw [← h1]
      exact List.mem_map.mpr ⟨(b, i), h2, rfl⟩
    · exfalso
      apply hd1
      rw [← h2]
      exact List.mem_map.mpr ⟨(a, i), h1, rfl⟩
    · exact ih hd2 h1 h2

/-! ### Comparator lemmas -/

theorem compare_helper_eq_some (cmp : Nat → Nat → Bool) (ks : Ledger Key)
    (a b : Key) (i j : Nat)
    (ha : ledgerFind ks a = some i) (hb : ledgerFind ks b = some j) :
    compare_helper cmp ks a b = some (cmp i j) := by
  simp [compare_helper, ha, hb]

theorem compare_helper_none_left (cmp : Nat → Nat → Bool) (ks : Ledger Key)
    (a b : Key) (ha : ledgerFind ks a = none) :
    compare_helper cmp ks a b = none := by
  cases hb : ledgerFind ks b <;> simp [compare_helper, ha, hb]

theorem gidx_eq (ks : Ledger Key) (k : Key) (i : Nat)
    (h : ledgerFind ks k = some i) : gidx ks k = i := by
  simp [gidx, h]

theorem ascending_false (i j : Nat) (h : ¬ i < j) : ascending i j = false := by
  simp [ascending, h]

theorem ascending_true (i j : Nat) (h : i < j) : ascending i j = true := by
  simp [ascending, h]

/-! ### Store lemmas

All store operations run under the comparator `compare_helper ascending ks`
for the ledger `ks` current at call time.  `hres` states that every stored key
resolves in the ledger, `hsort` that the entry list is strictly sorted by
resolved sequence number — both part of `MapInv`. -/

theorem store_keys_nodup (ks : Ledger Key) (s : Store Key A)
    (hsort : s.Pairwise fun p q => gidx ks p.1 < gidx ks q.1) :
    (s.map Prod.fst).Nodup := by
  show (s.map Prod.fst).Pairwise (fun a b => a ≠ b)
  rw [List.pairwise_map]
  exact hsort.imp fun h heq => absurd (heq ▸ h) (lt_irrefl _)

theorem storeInsert_append_of_max (ks : Ledger Key) (k : Key) (ik : Nat)
    (v : A) (hk : ledgerFind ks k = some ik) (s : Store Key A)
    (hres : ∀ p ∈ s, (ledgerFind ks p.1).isSome = true)
    (hmax : ∀ p ∈ s, gidx ks p.1 < ik) :
    storeInsert (compare_helper ascending ks) k v s = some (s ++ [(k, v)], true) := by
  induction s with
  | nil => simp [storeInsert]
  | cons p rest ih =>
    obtain ⟨ip, hip⟩ := Option.isSome_iff_exists.mp (hres p (List.mem_cons_self p rest))
    have hlt : ip < ik := by
      have := hmax p (List.mem_cons_self p rest)
      rwa [gidx_eq _ _ _ hip] at this
    have h1 : compare_helper ascending ks k p.1 = some false := by
      rw [compare_helper_eq_some _ _ _ _ _ _ hk hip,
        ascending_false _ _ (by omega)]
    have h2 : compare_helper ascending ks p.1 k = some true := by
      rw [compare_helper_eq_some _ _ _ _ _ _ hip hk, ascending_true _ _ hlt]
    have hrec := ih (fun q hq => hres q (List.mem_cons_of_mem _ hq))
      (fun q hq => hmax q (List.mem_cons_of_mem _ hq))
    simp [storeInsert, h1, h2, hrec]

theorem storeInsert_of_mem (ks : Ledger Key) (k : Key) (v : A)
    (s : Store Key A)
    (hres : ∀ p ∈ s, (ledgerFind ks p.1).isSome = true)
    (hsort : s.Pairwise fun p q => gidx ks p.1 < gidx ks q.1)
    (hk : k ∈ s.map Prod.fst) :
    storeInsert (compare_helper ascending ks) k v s = some (s, false) := by
  induction s with
  | nil => cases hk
  | cons p rest ih =>
    obtain ⟨ip, hip⟩ := Option.isSome_iff_exists.mp (hres p (List.mem_cons_self p rest))
    obtain ⟨q, hqmem0, hqk⟩ := List.mem_map.mp hk
    rcases List.mem_cons.mp hqmem0 with hh | hqmem
    · -- the matching entry is the head: both comparisons yield `false`
      have hpk : p.1 = k := by rw [← hqk, hh]
      rw [← hpk]
      have h1 : compare_helper ascending ks p.1 p.1 = some false := by
        rw [compare_helper_eq_some _ _ _ _ _ _ hip hip,
          ascending_false _ _ (lt_irrefl _)]
      simp [storeInsert, h1]
    · -- the matching entry is deeper: the head sorts strictly before it
      obtain ⟨iq, hiq⟩ := Option.isSome_iff_exists.mp
        (hres q (List.mem_cons_of_mem _ hqmem))
      have hlt : ip < iq := by
        have := (List.pairwise_cons.mp hsort).1 q hqmem
        rwa [gidx_eq _ _ _ hip, gidx_eq _ _ _ hiq] at this
      have hkfind : ledgerFind ks k = some iq := by rw [← hqk]; exact hiq
      have h1 : compare_helper ascending ks k p.1 = some false := by
        rw [compare_helper_eq_some _ _ _ _ _ _ hkfind hip,
          ascending_false _ _ (by omega)]
      have h2 : compare_helper ascending ks p.1 k = some true := by
        rw [compare_helper_eq_some _ _ _ _ _ _ hip hkfind, ascending_true _ _ hlt]
      have hrec := ih (fun r hr => hres r (List.mem_cons_of_mem _ hr))
        (List.pairwise_cons.mp hsort).2
        (List.mem_map.mpr ⟨q, hqmem, hqk⟩)
      simp [storeInsert, h1, h2, hrec]

theorem storeInsert_of_unresolved (ks : Ledger Key) (k : Key) (v : A)
    (hk : ledgerFind ks k = none) (s : Store Key A) (hs : s ≠ []) :
    storeInsert (compare_helper ascending ks) k v s = none := by
  cases s with
  | nil => exact absurd rfl hs
  | cons p rest => simp [storeInsert, compare_helper_none_left _ _ _ _ hk]

theorem storeFind_of_mem (ks : Ledger Key) (k : Key) (v : A)
    (s : Store Key A)
    (hres : ∀ p ∈ s, (ledgerFind ks p.1).isSome = true)
    (hsort : s.Pairwise fun p q => gidx ks p.1 < gidx ks q.1)
    (hmem : (k, v) ∈ s) :
    storeFind (compare_helper ascending ks) k s = some (some (k, v)) := by
  induction s with
  | nil => cases hmem
  | cons p rest ih =>
    obtain ⟨ip, hip⟩ := Option.isSome_iff_exists.mp (hres p (List.mem_cons_self p rest))
    rcases List.mem_cons.mp hmem with hh | hh
    · have hip' : ledgerFind ks k = some ip := by
        rw [← hh] at hip
        exact hip
      have h1 : compare_helper ascending ks k k = some false := by
        rw [compare_helper_eq_some _ _ _ _ _ _ hip' hip',
          ascending_false _ _ (lt_irrefl _)]
      rw [← hh]
      simp [storeFind, h1]
    · obtain ⟨ik, hik⟩ := Option.isSome_iff_exists.mp
        (hres (k, v) (List.mem_cons_of_mem _ hh))
      have hlt : ip < ik := by
        have := (List.pairwise_cons.mp hsort).1 (k, v) hh
        rwa [gidx_eq _ _ _ hip, gidx_eq _ _ _ hik] at this
      have h1 : compare_helper ascending ks k p.1 = some false := by
        rw [compare_helper_eq_some _ _ _ _ _ _ hik hip,
          ascending_false _ _ (by omega)]
      have h2 : compare_helper ascending ks p.1 k = some true := by
        rw [compare_helper_eq_some _ _ _ _ _ _ hip hik, ascending_true _ _ hlt]
      have hrec := ih (fun r hr => hres r (List.mem_cons_of_mem _ hr))
        (List.pairwise_cons.mp hsort).2 hh
      simp [storeFind, h1, h2, hrec]

theorem storeFind_of_not_mem (ks : Ledger Key) (k : Key) (ik : Nat)
    (hsnd : (ks.map Prod.snd).Nodup) (hk : ledgerFind ks k = some ik)
    (s : Store Key A)
    (hres : ∀ p ∈ s, (ledgerFind ks p.1).isSome = true)
    (hsort : s.Pairwise fun p q => gidx ks p.1 < gidx ks q.1)
    (habs : k ∉ s.map Prod.fst) :
    storeFind (compare_helper ascending ks) k s = some none := by
  induction s with
  | nil => simp [storeFind]
  | cons p rest ih =>
    obtain ⟨ip, hip⟩ := Option.isSome_iff_exists.mp (hres p (List.mem_cons_self p rest))
    have hpk : p.1 ≠ k := by
      intro hh
      exact habs (List.mem_map.mpr ⟨p, List.mem_cons_self p rest, hh⟩)
    have hne : ip ≠ ik := by
      intro hh
      exact hpk (ledger_snd_inj ks p.1 k ik hsnd
        (hh ▸ ledgerFind_mem _ _ _ hip) (ledgerFind_mem _ _ _ hk))
    rcases Nat.lt_or_ge ik ip with hlt | hge
    · have h1 : compare_helper ascending ks k p.1 = some true := by
        rw [compare_helper_eq_some _ _ _ _ _ _ hk hip, ascending_true _ _ hlt]
      simp [storeFind, h1]
    · have hlt : ip < ik := by omega
      have h1 : compare_helper ascending ks k p.1 = some false := by
        rw [compare_helper_eq_some _ _ _ _ _ _ hk hip,
          ascending_false _ _ (by omega)]
      have h2 : compare_helper ascending ks p.1 k = some true := by
        rw [compare_helper_eq_some _ _ _ _ _ _ hip hk, ascending_true _ _ hlt]
      have hrec := ih (fun r hr => hres r (List.mem_cons_of_mem _ hr))
        (List.pairwise_cons.mp hsort).2
        (fun hh => habs (List.mem_cons_of_mem _ hh))
      rw [List.map_cons, List.mem_cons] at habs
      simp [storeFind, h1, h2, hrec]

theorem storeFind_of_unresolved (ks : Ledger Key) (k : Key)
    (hk : ledgerFind ks k = none) (s : Store Key A) (hs : s ≠ []) :
    storeFind (compare_helper ascending ks) k s = none := by
  cases s with
  | nil => exact absurd rfl hs
  | cons p rest => simp [storeFind, compare_helper_none_left _ _ _ _ hk]

theorem storeErase_of_mem (ks : Ledger Key) (k : Key) (s : Store Key A)
    (hres : ∀ p ∈ s, (ledgerFind ks p.1).isSome = true)
    (hsort : s.Pairwise fun p q => gidx ks p.1 < gidx ks q.1)
    (hmem : k ∈ s.map Prod.fst) :
    storeErase (compare_helper ascending ks) k s =
      some (s.filter (fun p => decide (p.1 ≠ k)), 1) := by
  induction s with
  | nil => cases hmem
  | cons p rest ih =>
    obtain ⟨ip, hip⟩ := Option.isSome_iff_exists.mp (hres p (List.mem_cons_self p rest))
    obtain ⟨q, hqmem0, hqk⟩ := List.mem_map.mp hmem
    rcases List.mem_cons.mp hqmem0 with hh | hqmem
    · -- head holds the key: remove it, the tail holds no duplicate
      have hpk : p.1 = k := by rw [← hqk, hh]
      have hip' : ledgerFind ks k = some ip := by rw [← hpk]; exact hip
      have h1 : compare_helper ascending ks k p.1 = some false := by
        rw [hpk, compare_helper_eq_some _ _ _ _ _ _ hip' hip',
          ascending_false _ _ (lt_irrefl _)]
      have h2 : compare_helper ascending ks p.1 k = some false := by
        rw [hpk, compare_helper_eq_some _ _ _ _ _ _ hip' hip',
          ascending_false _ _ (lt_irrefl _)]
      have hnd := store_keys_nodup ks (p :: rest) hsort
      rw [List.map_cons, List.nodup_cons] at hnd
      have hnotail : ∀ r ∈ rest, decide (r.1 ≠ k) = true := by
        intro r hr
        simp only [decide_eq_true_eq]
        intro hh2
        exact hnd.1 (List.mem_map.mpr ⟨r, hr, hh2.trans hpk.symm⟩)
      have hfilter : List.filter (fun r => decide (r.1 ≠ k)) (p :: rest) = rest := by
        rw [List.filter_cons, List.filter_eq_self.mpr hnotail]
        simp [hpk]
      rw [hfilter]
      simp [storeErase, h1, h2]
    · obtain ⟨iq, hiq⟩ := Option.isSome_iff_exists.mp
        (hres q (List.mem_cons_of_mem _ hqmem))
      have hlt : ip < iq := by
        have := (List.pairwise_cons.mp hsort).1 q hqmem
        rwa [gidx_eq _ _ _ hip, gidx_eq _ _ _ hiq] at this
      have hkfind : ledgerFind ks k = some iq := by rw [← hqk]; exact hiq
      have hpk : p.1 ≠ k := by
        intro hh
        rw [hh, hkfind] at hip
        have h3 : iq = ip := by injection hip
        omega
      have h1 : compare_helper ascending ks k p.1 = some false := by
        rw [compare_helper_eq_some _ _ _ _ _ _ hkfind hip,
          ascending_false _ _ (by omega)]
      have h2 : compare_helper ascending ks p.1 k = some true := by
        rw [compare_helper_eq_some _ _ _ _ _ _ hip hkfind, ascending_true _ _ hlt]
      have hrec := ih (fun r hr => hres r (List.mem_cons_of_mem _ hr))
        (List.pairwise_cons.mp hsort).2
        (List.mem_map.mpr ⟨q, hqmem, hqk⟩)
      simp [storeErase, h1, h2, hrec, List.filter_cons, hpk]

theorem storeErase_of_not_mem (ks : Ledger Key) (k : Key) (ik : Nat)
    (hsnd : (ks.map Prod.snd).Nodup) (hk : ledgerFind ks k = some ik)
    (s : Store Key A)
    (hres : ∀ p ∈ s, (ledgerFind ks p.1).isSome = true)
    (hsort : s.Pairwise fun p q => gidx ks p.1 < gidx ks q.1)
    (habs : k ∉ s.map Prod.fst) :
    storeErase (compare_helper ascending ks) k s = some (s, 0) := by
  induction s with
  | nil => simp [storeErase]
  | cons p rest ih =>
    obtain ⟨ip, hip⟩ := Option.isSome_iff_exists.mp (hres p (List.mem_cons_self p rest))
    have hpk : p.1 ≠ k := by
      intro hh
      exact habs (List.mem_map.mpr ⟨p, List.mem_cons_self p rest, hh⟩)
    have hne : ip ≠ ik := by
      intro hh
      exact hpk (ledger_snd_inj ks p.1 k ik hsnd
        (hh ▸ ledgerFind_mem _ _ _ hip) (ledgerFind_mem _ _ _ hk))
    rcases Nat.lt_or_ge ik ip with hlt | hge
    · have h1 : compare_helper ascending ks k p.1 = some true := by
        rw [compare_helper_eq_some _ _ _ _ _ _ hk hip, ascending_true _ _ hlt]
      simp [storeErase, h1]
    · have hlt : ip < ik := by omega
      have h1 : compare_helper ascending ks k p.1 = some false := by
        rw [compare_helper_eq_some _ _ _ _ _ _ hk hip,
          ascending_false _ _ (by omega)]
      have h2 : compare_helper ascending ks p.1 k = some true := by
        rw [compare_helper_eq_some _ _ _ _ _ _ hip hk, ascending_true _ _ hlt]
      have hrec := ih (fun r hr => hres r (List.mem_cons_of_mem _ hr))
        (List.pairwise_cons.mp hsort).2
        (fun hh => habs (List.mem_cons_of_mem _ hh))
      simp [storeErase, h1, h2, hrec]

theorem storeErase_of_unresolved (ks : Ledger Key) (k : Key)
    (hk : ledgerFind ks k = none) (s : Store Key A) (hs : s ≠ []) :
    storeErase (compare_helper ascending ks) k s = none := by
  cases s with
  | nil => exact absurd rfl hs
  | cons p rest => simp [storeErase, compare_helper_none_left _ _ _ _ hk]

/-! ### Operation-level characterisations -/

namespace ordered_map

/-- Inserting a key that is absent from the ledger: the ledger gains
`(k, index_)` at the end of the sequence order, the store appends the entry at
the end of the iteration order, the counter advances. -/
theorem insert_of_not_found (m : ordered_map Key A) (hInv : MapInv m)
    (k : Key) (v : A) (hk : ledgerFind m.keys_ k = none) :
    insert m k v =
      some (⟨m.keys_ ++ [(k, m.index_)], m.map_ ++ [(k, v)], m.index_ + 1⟩,
        true) := by
  obtain ⟨hnd1, hnd2, hbound, hres, hsort, hsub⟩ := hInv
  have hins : ledgerInsert m.keys_ k m.index_ = m.keys_ ++ [(k, m.index_)] :=
    ledgerInsert_of_not_found _ _ _ hk
  have hk' : ledgerFind (m.keys_ ++ [(k, m.index_)]) k = some m.index_ :=
    ledgerFind_append_singleton_self _ _ _ hk
  have hres' : ∀ p ∈ m.map_,
      (ledgerFind (m.keys_ ++ [(k, m.index_)]) p.1).isSome = true := by
    intro p hp
    have hne : p.1 ≠ k := by
      intro hh
      have h0 := hres p hp
      rw [hh, hk] at h0
      simp at h0
    rw [ledgerFind_append_singleton_ne _ _ _ _ hne]
    exact hres p hp
  have hmax' : ∀ p ∈ m.map_,
      gidx (m.keys_ ++ [(k, m.index_)]) p.1 < m.index_ := by
    intro p hp
    obtain ⟨i, hi⟩ := Option.isSome_iff_exists.mp (hres p hp)
    have hne : p.1 ≠ k := by
      intro hh
      rw [hh, hk] at hi
      cases hi
    rw [gidx, ledgerFind_append_singleton_ne _ _ _ _ hne, hi]
    exact hbound (p.1, i) (ledgerFind_mem _ _ _ hi)
  have hstore := storeInsert_append_of_max (m.keys_ ++ [(k, m.index_)]) k
    m.index_ v hk' m.map_ hres' hmax'
  simp only [insert, add_index, cmp, hins]
  rw [hstore]

/-- Inserting a key already present in the ledger: the ledger insert is a
no-op, the store insert finds the equivalent key and is a no-op, but the
counter still advances (post-increment in `add_index`). -/
theorem insert_of_found (m : ordered_map Key A) (hInv : MapInv m)
    (k : Key) (v : A) (hk : (ledgerFind m.keys_ k).isSome = true) :
    insert m k v = some ({ m with index_ := m.index_ + 1 }, false) := by
  obtain ⟨hnd1, hnd2, hbound, hres, hsort, hsub⟩ := hInv
  have hins : ledgerInsert m.keys_ k m.index_ = m.keys_ :=
    ledgerInsert_of_found _ _ _ hk
  have hkmem : k ∈ m.map_.map Prod.fst :=
    hsub k ((ledgerFind_isSome_iff _ _).mp hk)
  have hstore := storeInsert_of_mem m.keys_ k v m.map_ hres hsort hkmem
  simp only [insert, add_index, cmp, hins]
  rw [hstore]

theorem emplace_eq_insert (m : ordered_map Key A) (k : Key) (v : A) :
    emplace m k v = insert m k v := rfl

theorem getOrInsert_eq (m : ordered_map Key A) (k : Key) (d : A) :
    getOrInsert m k d = (insert m k d).map Prod.fst := by
  simp only [getOrInsert, insert]
  cases storeInsert (add_index m k).cmp k d (add_index m k).map_ with
  | none => rfl
  | some r =>
    obtain ⟨s, b⟩ := r
    rfl

/-- Erasing a present key: the store entry is removed (preserving the order of
the remaining entries), then `remove_index` removes the ledger entry; the
counter is untouched. -/
theorem erase_of_mem (m : ordered_map Key A) (hInv : MapInv m) (k : Key)
    (hk : k ∈ m.map_.map Prod.fst) :
    erase m k =
      some (⟨ledgerErase m.keys_ k,
        m.map_.filter (fun p => decide (p.1 ≠ k)), m.index_⟩, 1) := by
  obtain ⟨hnd1, hnd2, hbound, hres, hsort, hsub⟩ := hInv
  have hstore := storeErase_of_mem m.keys_ k m.map_ hres hsort hk
  simp only [erase, cmp]
  rw [hstore]
  simp [remove_index]

/-- Erasing with a key that has no ledger entry while the store is non-empty:
`map_.erase(key)` compares the key against stored keys, and the very first
comparison dereferences a failed ledger lookup. -/
theorem erase_of_unresolved (m : ordered_map Key A) (k : Key)
    (hk : ledgerFind m.keys_ k = none) (hne : m.map_ ≠ []) :
    erase m k = none := by
  simp only [erase, cmp]
  rw [storeErase_of_unresolved _ _ hk _ hne]

/-- Erasing on an empty store: no comparison runs, nothing is erased, and
since `res = 0` the ledger is not touched either. -/
theorem erase_of_empty (m : ordered_map Key A) (k : Key) (hm : m.map_ = []) :
    erase m k = some (m, 0) := by
  obtain ⟨ks, s, i⟩ := m
  simp only at hm
  subst hm
  simp [erase, cmp, storeErase]

/-! ### Invariant preservation -/

theorem mapInv_empty : MapInv (empty : ordered_map Key A) := by
  simp [MapInv, empty]

theorem mapInv_insert_new (m : ordered_map Key A) (hInv : MapInv m)
    (k : Key) (v : A) (hk : ledgerFind m.keys_ k = none) :
    MapInv (⟨m.keys_ ++ [(k, m.index_)], m.map_ ++ [(k, v)],
      m.index_ + 1⟩ : ordered_map Key A) := by
  obtain ⟨hnd1, hnd2, hbound, hres, hsort, hsub⟩ := hInv
  have hkold : k ∉ m.keys_.map Prod.fst := (ledgerFind_eq_none_iff _ _).mp hk
  unfold MapInv
  refine ⟨?_, ?_, ?_, ?_, ?_, ?_⟩
  · rw [List.map_append, List.nodup_append]
    refine ⟨hnd1, by simp, ?_⟩
    intro a ha hb
    simp at hb
    subst hb
    exact hkold ha
  · rw [List.map_append, List.nodup_append]
    refine ⟨hnd2, by simp, ?_⟩
    intro i hi hb
    simp at hb
    obtain ⟨p, hp, hpe⟩ := List.mem_map.mp hi
    have hlt := hbound p hp
    omega
  · intro p hp
    rcases List.mem_append.mp hp with h | h
    · exact Nat.lt_succ_of_lt (hbound p h)
    · simp at h
      subst h
      exact Nat.lt_succ_self _
  · intro p hp
    rcases List.mem_append.mp hp with h | h
    · have hne : p.1 ≠ k := by
        intro hh
        have h0 := hres p h
        rw [hh, hk] at h0
        simp at h0
      rw [ledgerFind_append_singleton_ne _ _ _ _ hne]
      exact hres p h
    · simp at h
      subst h
      show (ledgerFind (m.keys_ ++ [(k, m.index_)]) k).isSome = true
      rw [ledgerFind_append_singleton_self _ _ _ hk]
      rfl
  · rw [List.pairwise_append]
    refine ⟨?_, by simp, ?_⟩
    · refine List.Pairwise.imp_of_mem ?_ hsort
      intro p q hp hq hpq
      have hnep : p.1 ≠ k := by
        intro hh
        have h0 := hres p hp
        rw [hh, hk] at h0
        simp at h0
      have hneq : q.1 ≠ k := by
        intro hh
        have h0 := hres q hq
        rw [hh, hk] at h0
        simp at h0
      unfold gidx at hpq ⊢
      rwa [ledgerFind_append_singleton_ne _ _ _ _ hnep,
        ledgerFind_append_singleton_ne _ _ _ _ hneq]
    · intro p hp q hq
      simp at hq
      subst hq
      obtain ⟨i, hi⟩ := Option.isSome_iff_exists.mp (hres p hp)
      have hnep : p.1 ≠ k := by
        intro hh
        rw [hh, hk] at hi
        cases hi
      show gidx (m.keys_ ++ [(k, m.index_)]) p.1 <
        gidx (m.keys_ ++ [(k, m.index_)]) k
      unfold gidx
      rw [ledgerFind_append_singleton_ne _ _ _ _ hnep, hi,
        ledgerFind_append_singleton_self _ _ _ hk]
      exact hbound (p.1, i) (ledgerFind_mem _ _ _ hi)
  · intro a ha
    rw [List.map_append, List.mem_append] at ha
    rw [List.map_append, List.mem_append]
    rcases ha with h | h
    · exact Or.inl (hsub a h)
    · right
      simpa using h

theorem mapInv_bump (m : ordered_map Key A) (hInv : MapInv m) :
    MapInv ({ m with index_ := m.index_ + 1 } : ordered_map Key A) := by
  obtain ⟨hnd1, hnd2, hbound, hres, hsort, hsub⟩ := hInv
  exact ⟨hnd1, hnd2, fun p hp => Nat.lt_succ_of_lt (hbound p hp),
    hres, hsort, hsub⟩

theorem mapInv_erase (m : ordered_map Key A) (hInv : MapInv m) (k : Key) :
    MapInv (⟨ledgerErase m.keys_ k,
      m.map_.filter (fun p => decide (p.1 ≠ k)), m.index_⟩ :
        ordered_map Key A) := by
  obtain ⟨hnd1, hnd2, hbound, hres, hsort, hsub⟩ := hInv
  have hsubl := ledgerErase_sublist m.keys_ k
  unfold MapInv
  refine ⟨?_, ?_, ?_, ?_, ?_, ?_⟩
  · exact hnd1.sublist (hsubl.map _)
  · exact hnd2.sublist (hsubl.map _)
  · intro p hp
    exact hbound p (hsubl.subset hp)
  · intro p hp
    rw [List.mem_filter] at hp
    have hne : p.1 ≠ k := by simpa using hp.2
    rw [ledgerFind_ledgerErase_ne _ _ _ hne]
    exact hres p hp.1
  · have h1 : (m.map_.filter (fun p => decide (p.1 ≠ k))).Pairwise
        (fun p q => gidx m.keys_ p.1 < gidx m.keys_ q.1) :=
      hsort.sublist (List.filter_sublist m.map_)
    refine List.Pairwise.imp_of_mem ?_ h1
    intro p q hp hq hpq
    rw [List.mem_filter] at hp hq
    have hnep : p.1 ≠ k := by simpa using hp.2
    have hneq : q.1 ≠ k := by simpa using hq.2
    unfold gidx at hpq ⊢
    rwa [ledgerFind_ledgerErase_ne _ _ _ hnep,
      ledgerFind_ledgerErase_ne _ _ _ hneq]
  · intro a ha
    obtain ⟨p, hp, hpe⟩ := List.mem_map.mp ha
    have hak : a ≠ k := by
      intro hh
      have h0 : ledgerFind (ledgerErase m.keys_ k) k = none :=
        ledgerFind_ledgerErase_self _ _ hnd1
      rw [ledgerFind_eq_none_iff] at h0
      exact h0 (hh ▸ ha)
    have hmem : a ∈ m.map_.map Prod.fst :=
      hsub a (List.mem_map.mpr ⟨p, hsubl.subset hp, hpe⟩)
    obtain ⟨q, hq, hqe⟩ := List.mem_map.mp hmem
    refine List.mem_map.mpr ⟨q, ?_, hqe⟩
    rw [List.mem_filter]
    refine ⟨hq, ?_⟩
    simp only [hqe, decide_eq_true_eq]
    exact hak

theorem mapInv_clear (m : ordered_map Key A) : MapInv (clear m) := by
  unfold MapInv clear
  simp

theorem runOp_mapInv (m m' : ordered_map Key A) (op : Op Key A)
    (hInv : MapInv m) (h : runOp m op = some m') : MapInv m' := by
  cases op with
  | insOp k v =>
    simp only [runOp] at h
    cases hk : ledgerFind m.keys_ k with
    | none =>
      rw [insert_of_not_found m hInv k v hk] at h
      simp only [Option.map_some'] at h
      cases h
      exact mapInv_insert_new m hInv k v hk
    | some i =>
      have hk' : (ledgerFind m.keys_ k).isSome = true := by rw [hk]; rfl
      rw [insert_of_found m hInv k v hk'] at h
      simp only [Option.map_some'] at h
      cases h
      exact mapInv_bump m hInv
  | emplOp k v =>
    simp only [runOp, emplace_eq_insert] at h
    cases hk : ledgerFind m.keys_ k with
    | none =>
      rw [insert_of_not_found m hInv k v hk] at h
      simp only [Option.map_some'] at h
      cases h
      exact mapInv_insert_new m hInv k v hk
    | some i =>
      have hk' : (ledgerFind m.keys_ k).isSome = true := by rw [hk]; rfl
      rw [insert_of_found m hInv k v hk'] at h
      simp only [Option.map_some'] at h
      cases h
      exact mapInv_bump m hInv
  | getOp k d =>
    simp only [runOp, getOrInsert_eq] at h
    cases hk : ledgerFind m.keys_ k with
    | none =>
      rw [insert_of_not_found m hInv k d hk] at h
      simp only [Option.map_some'] at h
      cases h
      exact mapInv_insert_new m hInv k d hk
    | some i =>
      have hk' : (ledgerFind m.keys_ k).isSome = true := by rw [hk]; rfl
      rw [insert_of_found m hInv k d hk'] at h
      simp only [Option.map_some'] at h
      cases h
      exact mapInv_bump m hInv
  | eraseOp k =>
    simp only [runOp] at h
    cases hk : ledgerFind m.keys_ k with
    | some i =>
      have hmem : k ∈ m.map_.map Prod.fst :=
        hInv.2.2.2.2.2 k ((ledgerFind_isSome_iff _ _).mp (by rw [hk]; rfl))
      rw [erase_of_mem m hInv k hmem] at h
      simp only [Option.map_some'] at h
      cases h
      exact mapInv_erase m hInv k
    | none =>
      cases hm : m.map_ with
      | nil =>
        rw [erase_of_empty m k hm] at h
        simp only [Option.map_some'] at h
        cases h
        exact hInv
      | cons p rest =>
        rw [erase_of_unresolved m k hk (by rw [hm]; simp)] at h
        exact Option.noConfusion h
  | clearOp =>
    simp only [runOp] at h
    cases h
    exact mapInv_clear m

theorem runOps_mapInv (ops : List (Op Key A)) (m m' : ordered_map Key A)
    (hInv : MapInv m) (h : runOps m ops = some m') : MapInv m' := by
  induction ops generalizing m with
  | nil =>
    simp only [runOps] at h
    cases h
    exact hInv
  | cons op ops ih =>
    simp only [runOps] at h
    cases hop : runOp m op with
    | none =>
      rw [hop] at h
      exact Option.noConfusion h
    | some m1 =>
      rw [hop] at h
      exact ih m1 (runOp_mapInv m m1 op hInv hop) h

theorem reachable_mapInv (m : ordered_map Key A) (h : Reachable m) :
    MapInv m := by
  obtain ⟨ops, hops⟩ := h
  exact runOps_mapInv ops empty m mapInv_empty hops

/-- Under the invariant, a key is in the ledger exactly when it is in the
store: the correspondence between the two key-sets. -/
theorem mapInv_keySet (m : ordered_map Key A) (hInv : MapInv m) (a : Key) :
    a ∈ m.keys_.map Prod.fst ↔ a ∈ m.map_.map Prod.fst := by
  obtain ⟨hnd1, hnd2, hbound, hres, hsort, hsub⟩ := hInv
  constructor
  · exact hsub a
  · intro h
    obtain ⟨p, hp, hpe⟩ := List.mem_map.mp h
    have h0 := hres p hp
    rw [hpe] at h0
    exact (ledgerFind_isSome_iff _ _).mp h0

/-- Under the invariant the ledger and the store hold the same number of
entries. -/
theorem mapInv_length (m : ordered_map Key A) (hInv : MapInv m) :
    m.map_.length = m.keys_.length := by
  have hnd1 := hInv.1
  have hndm := store_keys_nodup m.keys_ m.map_ hInv.2.2.2.2.1
  have hperm : (m.map_.map Prod.fst).Perm (m.keys_.map Prod.fst) :=
    (List.perm_ext_iff_of_nodup hndm hnd1).mpr
      (fun a => (mapInv_keySet m hInv a).symm)
  have := hperm.length_eq
  rwa [List.length_map, List.length_map] at this

end ordered_map

/-! ### Further helper lemmas for the claims -/

theorem ledgerErase_append_singleton_self (ks : Ledger Key) (k : Key)
    (i : Nat) (h : ledgerFind ks k = none) :
    ledgerErase (ks ++ [(k, i)]) k = ks := by
  induction ks with
  | nil => simp [ledgerErase]
  | cons p rest ih =>
    obtain ⟨a, j⟩ := p
    by_cases hk : a = k
    · simp [ledgerFind, hk] at h
    · simp [ledgerFind, hk] at h
      simp [ledgerErase, hk, ih h]

theorem map_fst_filter (f : Key → Bool) (s : Store Key A) :
    (s.filter (fun p => f p.1)).map Prod.fst = (s.map Prod.fst).filter f := by
  induction s with
  | nil => rfl
  | cons p rest ih =>
    rw [List.map_cons, List.filter_cons, List.filter_cons]
    cases hb : f p.1 with
    | false => simp [hb, ih]
    | true => simp [hb, ih]

theorem map_fst_filter_ne (s : Store Key A) (k : Key) :
    (s.filter (fun p => decide (p.1 ≠ k))).map Prod.fst =
      (s.map Prod.fst).filter (fun a => decide (a ≠ k)) :=
  map_fst_filter (fun a => decide (a ≠ k)) s

/-- A single insertion of each entry of `l`, in order: exactly what the range
and initializer-list constructors (src 89–104) and a caller's loop of
`insert` calls perform. -/
def insOps (l : List (Key × A)) : List (ordered_map.Op Key A) :=
  l.map fun p => ordered_map.Op.insOp p.1 p.2

theorem runOps_insOps_fresh (l : List (Key × A)) (m : ordered_map Key A)
    (hInv : MapInv m) (hnd : (l.map Prod.fst).Nodup)
    (hfresh : ∀ a ∈ l.map Prod.fst, ledgerFind m.keys_ a = none) :
    ∃ m', ordered_map.runOps m (insOps l) = some m' ∧
      m'.map_.map Prod.fst = m.map_.map Prod.fst ++ l.map Prod.fst := by
  induction l generalizing m with
  | nil => exact ⟨m, rfl, by simp⟩
  | cons p rest ih =>
    obtain ⟨k, v⟩ := p
    have hk : ledgerFind m.keys_ k = none := hfresh k (by simp)
    have hstep := ordered_map.insert_of_not_found m hInv k v hk
    have hInv1 := ordered_map.mapInv_insert_new m hInv k v hk
    rw [List.map_cons, List.nodup_cons] at hnd
    have hfresh' : ∀ a ∈ rest.map Prod.fst,
        ledgerFind (m.keys_ ++ [(k, m.index_)]) a = none := by
      intro a ha
      have hne : a ≠ k := fun hh => hnd.1 (hh ▸ ha)
      rw [ledgerFind_append_singleton_ne _ _ _ _ hne]
      exact hfresh a (List.mem_cons_of_mem _ ha)
    obtain ⟨m', hrun, hkeys⟩ := ih
      (⟨m.keys_ ++ [(k, m.index_)], m.map_ ++ [(k, v)], m.index_ + 1⟩ :
        ordered_map Key A) hInv1 hnd.2 hfresh'
    refine ⟨m', ?_, ?_⟩
    · simp only [insOps, List.map_cons, ordered_map.runOps, ordered_map.runOp,
        hstep, Option.map_some']
      exact hrun
    · rw [hkeys]
      simp

/-! ### The claims -/

/-- Claim C1: for every sequence of insertions of N distinct keys into a
freshly constructed `ordered_map`, iterating from `begin()` to `end()` visits
the keys in exactly the order in which they were first inserted. -/
theorem C1_insertion_order (l : List (Key × A))
    (hnd : (l.map Prod.fst).Nodup) :
    (ordered_map.runOps (ordered_map.empty : ordered_map Key A)
        (insOps l)).map (fun m => m.map_.map Prod.fst) =
      some (l.map Prod.fst) := by
  obtain ⟨m', hrun, hkeys⟩ := runOps_insOps_fresh l ordered_map.empty
    ordered_map.mapInv_empty hnd (fun a _ => rfl)
  rw [hrun, Option.map_some', hkeys]
  rfl

theorem C1_insertion_order_witness :
    (([("b", 1), ("a", 2), ("c", 3)] : List (String × Nat)).map
      Prod.fst).Nodup ∧
    (ordered_map.runOps (ordered_map.empty : ordered_map String Nat)
        (insOps [("b", 1), ("a", 2), ("c", 3)])).map
        (fun m => m.map_.map Prod.fst) = some ["b", "a", "c"] :=
  ⟨by decide, C1_insertion_order [("b", 1), ("a", 2), ("c", 3)] (by decide)⟩

/-- Claim C2: after every completed public container operation starting from a
freshly constructed container, the key-set of the Index Ledger `keys_` equals
the key-set of the Primary Store `map_` (as both key lists are duplicate-free,
stated as a permutation); consequently `size()` equals the number of live
distinct keys, equals the Ledger's entry count, equals the Store's entry
count. -/
theorem C2_correspondence (ops : List (ordered_map.Op Key A))
    (m : ordered_map Key A)
    (h : ordered_map.runOps ordered_map.empty ops = some m) :
    (m.keys_.map Prod.fst).Perm (m.map_.map Prod.fst) ∧
    (m.keys_.map Prod.fst).Nodup ∧
    (m.map_.map Prod.fst).Nodup ∧
    ordered_map.size m = m.map_.length ∧
    m.map_.length = m.keys_.length := by
  have hInv := ordered_map.runOps_mapInv ops ordered_map.empty m
    ordered_map.mapInv_empty h
  have hndm := store_keys_nodup m.keys_ m.map_ hInv.2.2.2.2.1
  refine ⟨?_, hInv.1, hndm, rfl, ordered_map.mapInv_length m hInv⟩
  exact (List.perm_ext_iff_of_nodup hInv.1 hndm).mpr
    (ordered_map.mapInv_keySet m hInv)

theorem C2_correspondence_witness :
    ordered_map.runOps (ordered_map.empty : ordered_map String Nat)
        [ordered_map.Op.insOp "b" 1, ordered_map.Op.getOp "a" 2,
          ordered_map.Op.eraseOp "b"] =
      some (⟨[("a", 1)], [("a", 2)], 2⟩ : ordered_map String Nat) ∧
    ((([("a", 1)] : Ledger String).map Prod.fst).Perm
        (([("a", 2)] : Store String Nat).map Prod.fst) ∧
      (([("a", 1)] : Ledger String).map Prod.fst).Nodup ∧
      (([("a", 2)] : Store String Nat).map Prod.fst).Nodup ∧
      ordered_map.size (⟨[("a", 1)], [("a", 2)], 2⟩ :
        ordered_map String Nat) = 1 ∧
      (1 : Nat) = 1) :=
  ⟨by decide,
    C2_correspondence [ordered_map.Op.insOp "b" 1, ordered_map.Op.getOp "a" 2,
      ordered_map.Op.eraseOp "b"] ⟨[("a", 1)], [("a", 2)], 2⟩ (by decide)⟩

/-- Claim C3 (the code violates it): the claim states that on a container
satisfying the correspondence invariant no public call — including `find` with
a key not currently present — can make `compare_helper` dereference a failed
Ledger lookup.  The container below holds the single key "a" and its ledger
and store key-sets agree, yet the public call `find("b")` compares "b" against
the stored key "a", and `compare_helper` hits the failed ledger lookup for "b"
(the outer `none`), refuting the claim. -/
theorem C3_comparator_precondition_violated :
    ordered_map.insert (ordered_map.empty : ordered_map String Nat) "a" 1 =
      some (⟨[("a", 0)], [("a", 1)], 1⟩, true) ∧
    (⟨[("a", 0)], [("a", 1)], 1⟩ :
      ordered_map String Nat).keys_.map Prod.fst =
      (⟨[("a", 0)], [("a", 1)], 1⟩ :
        ordered_map String Nat).map_.map Prod.fst ∧
    compare_helper ascending [("a", 0)] "b" "a" = none ∧
    ordered_map.find (⟨[("a", 0)], [("a", 1)], 1⟩ :
      ordered_map String Nat) "b" = none := by
  refine ⟨by decide, by decide, by decide, by decide⟩

/-- The container reached by the concrete scenario of §8: insert "b", "a",
"c", then erase "a", then insert "a" again. -/
def scenario8 : ordered_map String Nat :=
  ⟨[("b", 0), ("c", 2), ("a", 3)], [("b", 1), ("c", 3), ("a", 4)], 4⟩

/-- The §8 call sequence producing `scenario8`. -/
def scenario8Ops : List (ordered_map.Op String Nat) :=
  [ordered_map.Op.insOp "b" 1, ordered_map.Op.insOp "a" 2,
    ordered_map.Op.insOp "c" 3, ordered_map.Op.eraseOp "a",
    ordered_map.Op.insOp "a" 4]

/-- Claim C4, counterexample: in the concrete scenario of §8 the container is
non-empty, and the search of `at("missing")` invokes the comparator with
"missing" — a key with no ledger entry — hitting the fatal failed-lookup
dereference before any out-of-range condition can be raised; the call does
not fail with the out-of-range condition the claim promises. -/
theorem C4_at_missing_counterexample :
    ordered_map.runOps (ordered_map.empty : ordered_map String Nat)
        scenario8Ops = some scenario8 ∧
    ordered_map.at' scenario8 "missing" = AtResult.cmpViolation ∧
    ordered_map.at' scenario8 "missing" ≠ AtResult.outOfRange := by
  refine ⟨by decide, by decide, by decide⟩

/-- Claim C4 as amended: `at(key)` with a key absent from the Ledger fails
with the out-of-range condition only when the Store is empty, so that its
search performs no comparison; on a non-empty Store the search first invokes
the comparator with the absent key and hits the fatal failed-lookup
dereference instead.  (`at` remains the only operation of the public API with
a documented out-of-range failure mode.) -/
theorem C4_at_absent (m : ordered_map Key A) (h : ordered_map.Reachable m)
    (k : Key) (habs : ledgerFind m.keys_ k = none) :
    ordered_map.at' m k =
      if m.map_.isEmpty then AtResult.outOfRange else AtResult.cmpViolation := by
  cases hm : m.map_ with
  | nil => simp [ordered_map.at', ordered_map.cmp, hm, storeFind]
  | cons p rest =>
    have h0 : storeFind (compare_helper ascending m.keys_) k m.map_ = none :=
      storeFind_of_unresolved m.keys_ k habs m.map_ (by rw [hm]; simp)
    rw [hm] at h0
    simp [ordered_map.at', ordered_map.cmp, h0, hm]

theorem C4_at_absent_witness :
    ordered_map.Reachable scenario8 ∧
    ledgerFind scenario8.keys_ "missing" = none ∧
    ordered_map.at' scenario8 "missing" =
      (if scenario8.map_.isEmpty then AtResult.outOfRange
        else AtResult.cmpViolation) :=
  ⟨⟨scenario8Ops, by decide⟩, by decide,
    C4_at_absent scenario8 ⟨scenario8Ops, by decide⟩ "missing" (by decide)⟩

/-- Claim C5, counterexample: insert "a" then "b", then erase "a"; the
container is still non-empty, and `find("a")` does not yield the end iterator
(which would be the inner `none`): its search invokes the comparator with "a",
whose ledger entry was just removed, and hits the fatal failed-lookup
dereference (the outer `none`) instead. -/
theorem C5_find_after_erase_counterexample :
    ordered_map.runOps (ordered_map.empty : ordered_map String Nat)
        [ordered_map.Op.insOp "a" 1, ordered_map.Op.insOp "b" 2,
          ordered_map.Op.eraseOp "a"] =
      some (⟨[("b", 1)], [("b", 2)], 2⟩ : ordered_map String Nat) ∧
    ordered_map.find (⟨[("b", 1)], [("b", 2)], 2⟩ :
      ordered_map String Nat) "a" = none ∧
    ordered_map.find (⟨[("b", 1)], [("b", 2)], 2⟩ :
      ordered_map String Nat) "a" ≠ some none := by
  refine ⟨by decide, by decide, by decide⟩

/-- Claim C5 as amended: for a reachable container and a previously absent key
K, `insert(K, V)` succeeds and `find(K)` then yields an iterator to the entry
(K, V); after `erase(K)`, `find(K)` yields the end iterator when the container
became empty, while on a still non-empty container the search invokes the
comparator with the now-ledgerless key K and hits the fatal failed-lookup
dereference instead of returning the end iterator. -/
theorem C5_lookup_round_trip (m : ordered_map Key A)
    (h : ordered_map.Reachable m) (k : Key) (v : A)
    (habs : ledgerFind m.keys_ k = none) :
    ordered_map.insert m k v =
      some ((⟨m.keys_ ++ [(k, m.index_)], m.map_ ++ [(k, v)],
        m.index_ + 1⟩ : ordered_map Key A), true) ∧
    ordered_map.find (⟨m.keys_ ++ [(k, m.index_)], m.map_ ++ [(k, v)],
      m.index_ + 1⟩ : ordered_map Key A) k = some (some (k, v)) ∧
    ordered_map.erase (⟨m.keys_ ++ [(k, m.index_)], m.map_ ++ [(k, v)],
      m.index_ + 1⟩ : ordered_map Key A) k =
      some ((⟨m.keys_, m.map_, m.index_ + 1⟩ : ordered_map Key A), 1) ∧
    ordered_map.find (⟨m.keys_, m.map_, m.index_ + 1⟩ :
      ordered_map Key A) k =
      (if m.map_.isEmpty then some none else none) := by
  have hInv := ordered_map.reachable_mapInv m h
  have hIns := ordered_map.insert_of_not_found m hInv k v habs
  have hInv1 := ordered_map.mapInv_insert_new m hInv k v habs
  obtain ⟨hnd1', hnd2', hbound', hres', hsort', hsub'⟩ := hInv1
  refine ⟨hIns, ?_, ?_, ?_⟩
  · show storeFind (compare_helper ascending (m.keys_ ++ [(k, m.index_)])) k
      (m.map_ ++ [(k, v)]) = some (some (k, v))
    exact storeFind_of_mem _ k v _ hres' hsort' (by simp)
  · have hmem : k ∈ (m.map_ ++ [(k, v)]).map Prod.fst := by simp
    have hErase := ordered_map.erase_of_mem
      (⟨m.keys_ ++ [(k, m.index_)], m.map_ ++ [(k, v)], m.index_ + 1⟩ :
        ordered_map Key A)
      ⟨hnd1', hnd2', hbound', hres', hsort', hsub'⟩ k hmem
    rw [hErase]
    have hfilter : (m.map_ ++ [(k, v)]).filter
        (fun p => decide (p.1 ≠ k)) = m.map_ := by
      rw [List.filter_append]
      have hf1 : m.map_.filter (fun p => decide (p.1 ≠ k)) = m.map_ := by
        apply List.filter_eq_self.mpr
        intro p hp
        simp only [decide_eq_true_eq]
        intro hh
        have h0 := hInv.2.2.2.1 p hp
        rw [hh, habs] at h0
        simp at h0
      have hf2 : ([(k, v)] : Store Key A).filter
          (fun p => decide (p.1 ≠ k)) = [] := by simp
      rw [hf1, hf2, List.append_nil]
    rw [ledgerErase_append_singleton_self _ _ _ habs, hfilter]
  · cases hm : m.map_ with
    | nil => simp [ordered_map.find, ordered_map.cmp, storeFind]
    | cons p rest =>
      have h0 := storeFind_of_unresolved m.keys_ k habs m.map_
        (by rw [hm]; simp)
      rw [hm] at h0
      simp [ordered_map.find, ordered_map.cmp, h0]

/-- A small reachable container holding the single key "x": the concrete input
for the C5 witness. -/
def sampleReachable : ordered_map String Nat := ⟨[("x", 0)], [("x", 7)], 1⟩

theorem C5_lookup_round_trip_witness :
    ordered_map.Reachable sampleReachable ∧
    ledgerFind sampleReachable.keys_ "a" = none ∧
    (ordered_map.insert sampleReachable "a" 5 =
      some ((⟨[("x", 0), ("a", 1)], [("x", 7), ("a", 5)], 2⟩ :
        ordered_map String Nat), true) ∧
    ordered_map.find (⟨[("x", 0), ("a", 1)], [("x", 7), ("a", 5)], 2⟩ :
      ordered_map String Nat) "a" = some (some ("a", 5)) ∧
    ordered_map.erase (⟨[("x", 0), ("a", 1)], [("x", 7), ("a", 5)], 2⟩ :
      ordered_map String Nat) "a" =
      some ((⟨[("x", 0)], [("x", 7)], 2⟩ : ordered_map String Nat), 1) ∧
    ordered_map.find (⟨[("x", 0)], [("x", 7)], 2⟩ :
      ordered_map String Nat) "a" = none) :=
  ⟨⟨[ordered_map.Op.insOp "x" 7], by decide⟩, by decide,
    C5_lookup_round_trip sampleReachable
      ⟨[ordered_map.Op.insOp "x" 7], by decide⟩ "a" 5 (by decide)⟩

/-- Claim C6: erasing a present key K (which keeps the remaining entries in
their iteration order) and then inserting K again appends K at the end of the
iteration order — the position of its newly assigned sequence number under the
default ascending comparator — not at its original position. -/
theorem C6_reinsert_at_end (m : ordered_map Key A)
    (h : ordered_map.Reachable m) (k : Key) (v : A)
    (hk : k ∈ m.map_.map Prod.fst) :
    ordered_map.erase m k =
      some ((⟨ledgerErase m.keys_ k,
        m.map_.filter (fun p => decide (p.1 ≠ k)), m.index_⟩ :
          ordered_map Key A), 1) ∧
    ordered_map.insert (⟨ledgerErase m.keys_ k,
        m.map_.filter (fun p => decide (p.1 ≠ k)), m.index_⟩ :
          ordered_map Key A) k v =
      some ((⟨ledgerErase m.keys_ k ++ [(k, m.index_)],
        m.map_.filter (fun p => decide (p.1 ≠ k)) ++ [(k, v)],
        m.index_ + 1⟩ : ordered_map Key A), true) ∧
    (m.map_.filter (fun p => decide (p.1 ≠ k)) ++ [(k, v)]).map Prod.fst =
      (m.map_.map Prod.fst).filter (fun a => decide (a ≠ k)) ++ [k] := by
  have hInv := ordered_map.reachable_mapInv m h
  have hErase := ordered_map.erase_of_mem m hInv k hk
  have hInv1 := ordered_map.mapInv_erase m hInv k
  have habs1 : ledgerFind (ledgerErase m.keys_ k) k = none :=
    ledgerFind_ledgerErase_self _ _ hInv.1
  have hIns := ordered_map.insert_of_not_found
    (⟨ledgerErase m.keys_ k, m.map_.filter (fun p => decide (p.1 ≠ k)),
      m.index_⟩ : ordered_map Key A) hInv1 k v habs1
  refine ⟨hErase, hIns, ?_⟩
  rw [List.map_append, map_fst_filter_ne]
  rfl

/-- The container holding "b", "a", "c" in first-insertion order: the §8
scenario input for the C6 witness. -/
def scenarioBAC : ordered_map String Nat :=
  ⟨[("b", 0), ("a", 1), ("c", 2)], [("b", 1), ("a", 2), ("c", 3)], 3⟩

theorem C6_reinsert_at_end_witness :
    ordered_map.Reachable scenarioBAC ∧
    "a" ∈ scenarioBAC.map_.map Prod.fst ∧
    (ordered_map.erase scenarioBAC "a" =
      some ((⟨[("b", 0), ("c", 2)], [("b", 1), ("c", 3)], 3⟩ :
        ordered_map String Nat), 1) ∧
    ordered_map.insert (⟨[("b", 0), ("c", 2)], [("b", 1), ("c", 3)], 3⟩ :
      ordered_map String Nat) "a" 4 =
      some ((⟨[("b", 0), ("c", 2), ("a", 3)],
        [("b", 1), ("c", 3), ("a", 4)], 4⟩ : ordered_map String Nat), true) ∧
    (["b", "c", "a"] : List String) = ["b", "c"] ++ ["a"]) :=
  ⟨⟨[ordered_map.Op.insOp "b" 1, ordered_map.Op.insOp "a" 2,
      ordered_map.Op.insOp "c" 3], by decide⟩, by decide,
    C6_reinsert_at_end scenarioBAC
      ⟨[ordered_map.Op.insOp "b" 1, ordered_map.Op.insOp "a" 2,
        ordered_map.Op.insOp "c" 3], by decide⟩ "a" 4 (by decide)⟩

/-- Claim C7: an insertion attempt (`insert`, `emplace`, `operator[]`) with a
key already present leaves the ledger — hence the key's sequence number — and
the store — hence its iteration position — unchanged, yet the Sequence
Counter still advances by one (the post-increment inside `add_index` is
evaluated although the ledger insert is a no-op), and the consumed number
`index_` is assigned to no live entry. -/
theorem C7_duplicate_insert_consumes_counter (m : ordered_map Key A)
    (h : ordered_map.Reachable m) (k : Key) (v d : A)
    (hk : (ledgerFind m.keys_ k).isSome = true) :
    ordered_map.insert m k v =
      some ((⟨m.keys_, m.map_, m.index_ + 1⟩ : ordered_map Key A), false) ∧
    ordered_map.emplace m k v =
      some ((⟨m.keys_, m.map_, m.index_ + 1⟩ : ordered_map Key A), false) ∧
    ordered_map.getOrInsert m k d =
      some (⟨m.keys_, m.map_, m.index_ + 1⟩ : ordered_map Key A) ∧
    m.index_ ∉ m.keys_.map Prod.snd := by
  have hInv := ordered_map.reachable_mapInv m h
  have h1 := ordered_map.insert_of_found m hInv k v hk
  have h2 := ordered_map.insert_of_found m hInv k d hk
  refine ⟨h1, ?_, ?_, ?_⟩
  · rw [ordered_map.emplace_eq_insert]
    exact h1
  · rw [ordered_map.getOrInsert_eq, h2]
    rfl
  · intro hmem
    obtain ⟨p, hp, hpe⟩ := List.mem_map.mp hmem
    have hb := hInv.2.2.1 p hp
    omega

theorem C7_duplicate_insert_consumes_counter_witness :
    ordered_map.Reachable scenario8 ∧
    (ledgerFind scenario8.keys_ "a").isSome = true ∧
    (ordered_map.insert scenario8 "a" 9 =
      some ((⟨[("b", 0), ("c", 2), ("a", 3)],
        [("b", 1), ("c", 3), ("a", 4)], 5⟩ : ordered_map String Nat),
        false) ∧
    ordered_map.emplace scenario8 "a" 9 =
      some ((⟨[("b", 0), ("c", 2), ("a", 3)],
        [("b", 1), ("c", 3), ("a", 4)], 5⟩ : ordered_map String Nat),
        false) ∧
    ordered_map.getOrInsert scenario8 "a" 7 =
      some (⟨[("b", 0), ("c", 2), ("a", 3)],
        [("b", 1), ("c", 3), ("a", 4)], 5⟩ : ordered_map String Nat) ∧
    (4 : Nat) ∉ ([("b", 0), ("c", 2), ("a", 3)] : Ledger String).map
      Prod.snd) :=
  ⟨⟨scenario8Ops, by decide⟩, by decide,
    C7_duplicate_insert_consumes_counter scenario8
      ⟨scenario8Ops, by decide⟩ "a" 9 7 (by decide)⟩

/-- Claim C8: in every reachable container state the vector returned by
`keys()` equals the ordered sequence of first components obtained by iterating
from `begin()` to `end()`.  (The vector is sized by the ledger, src 123, and
filled from the store's iteration, src 124–128; correspondence makes the two
counts agree, so no default-constructed tail and no overrun occur.) -/
theorem C8_keys_consistency [Inhabited Key] (m : ordered_map Key A)
    (h : ordered_map.Reachable m) :
    ordered_map.keys m = some (m.map_.map Prod.fst) := by
  have hInv := ordered_map.reachable_mapInv m h
  have hlen := ordered_map.mapInv_length m hInv
  simp [ordered_map.keys, ← hlen]

theorem C8_keys_consistency_witness :
    ordered_map.Reachable scenario8 ∧
    ordered_map.keys scenario8 = some ["b", "c", "a"] :=
  ⟨⟨scenario8Ops, by decide⟩,
    C8_keys_consistency scenario8 ⟨scenario8Ops, by decide⟩⟩

/-- Claim C9: `clear()` empties the ledger and the store together and leaves
the Sequence Counter unchanged (src 153–157 clear both maps and do not touch
`index_`); every sequence number held by a live ledger entry is strictly below
the counter, so the first key inserted after `clear()` receives the preserved
counter value `index_` — strictly greater than every previously assigned live
sequence number. -/
theorem C9_clear_keeps_counter (m : ordered_map Key A)
    (h : ordered_map.Reachable m) (k : Key) (v : A) :
    ordered_map.clear m = (⟨[], [], m.index_⟩ : ordered_map Key A) ∧
    m.keys_.all (fun p => decide (p.2 < m.index_)) = true ∧
    ordered_map.insert (ordered_map.clear m) k v =
      some ((⟨[(k, m.index_)], [(k, v)], m.index_ + 1⟩ :
        ordered_map Key A), true) := by
  have hInv := ordered_map.reachable_mapInv m h
  refine ⟨rfl, ?_, ?_⟩
  · rw [List.all_eq_true]
    intro p hp
    simp only [decide_eq_true_eq]
    exact hInv.2.2.1 p hp
  · exact ordered_map.insert_of_not_found (ordered_map.clear m)
      (ordered_map.mapInv_clear m) k v rfl

theorem C9_clear_keeps_counter_witness :
    ordered_map.Reachable scenario8 ∧
    (ordered_map.clear scenario8 =
      (⟨[], [], 4⟩ : ordered_map String Nat) ∧
    ([("b", 0), ("c", 2), ("a", 3)] : Ledger String).all
      (fun p => decide (p.2 < 4)) = true ∧
    ordered_map.insert (ordered_map.clear scenario8) "z" 9 =
      some ((⟨[("z", 4)], [("z", 9)], 5⟩ : ordered_map String Nat), true)) :=
  ⟨⟨scenario8Ops, by decide⟩,
    C9_clear_keeps_counter scenario8 ⟨scenario8Ops, by decide⟩ "z" 9⟩

/-! ### The swap hazard (claim C10)

`ordered_map::swap` (src 236–241) performs `std::swap` on `map_`, `compare_`
and `keys_` in turn.  `std::swap` exchanges the *contents* of its two
arguments; the member objects themselves — in particular the two `keys_`
members — keep their addresses.  A `compare_helper` holds a raw pointer
`std::map<Key, Index>* keys_` (src 47) set once at construction to the
address of its own container's ledger member (src 84, 92: `compare_{&keys_}`),
and `std::map` stores a copy of its comparator which `std::swap(map_,
other.map_)` exchanges along with the tree.  The model below tracks exactly
this pointer structure: the two ledger member slots with their contents, and
the slot targeted by each of the four comparator objects (the `compare_`
member of each container and the comparator copy inside each container's
`map_`). -/

/-- Identity of one of the two `keys_` member slots: the slot inside container
`a` or the slot inside container `b`.  Addresses of members are stable across
`std::swap`, so a pointer value is the identity of the slot it targets. -/
inductive LedgerSlot where
  | inA
  | inB
deriving DecidableEq

/-- Joint state of two `ordered_map` instances `a` and `b` for the swap
analysis: the contents of the two `keys_` member slots, the slots targeted by
the two `compare_` members, and the slots targeted by the comparator copies
held inside the two `map_` members. -/
structure SwapWorld (Key : Type u) where
  slotContentsA : Ledger Key
  slotContentsB : Ledger Key
  cmpTargetA : LedgerSlot
  cmpTargetB : LedgerSlot
  storeCmpTargetA : LedgerSlot
  storeCmpTargetB : LedgerSlot

/-- Dereference a comparator's ledger pointer: read the current contents of
the member slot it targets. -/
def SwapWorld.readSlot (w : SwapWorld Key) : LedgerSlot → Ledger Key
  | LedgerSlot.inA => w.slotContentsA
  | LedgerSlot.inB => w.slotContentsB

/-- The call `a.swap(b)` (src 236–241) on the ledger/comparator state:
`std::swap(map_, other.map_)` exchanges the comparator copies inside the
stores, `std::swap(compare_, other.compare_)` exchanges the comparator
objects — that is, the pointer values — and `std::swap(keys_, other.keys_)`
exchanges the slot contents.  No step rebinds any pointer to the member slot
of the container it now belongs to. -/
def swapMembers (w : SwapWorld Key) : SwapWorld Key where
  slotContentsA := w.slotContentsB
  slotContentsB := w.slotContentsA
  cmpTargetA := w.cmpTargetB
  cmpTargetB := w.cmpTargetA
  storeCmpTargetA := w.storeCmpTargetB
  storeCmpTargetB := w.storeCmpTargetA

/-- Claim C10: starting from the well-formed binding in which each container's
`compare_` member and the comparator copy inside its Primary Store point at
that container's own `keys_` member, after `swap(a, b)` all four comparator
objects point at the OTHER instance's ledger member — the member-wise swap
exchanged ledger contents and comparator objects independently without
rebinding the back-reference — and dereferencing container `a`'s comparator
now yields the ledger contents `a` held BEFORE the swap, not the contents its
own `keys_` member currently holds; symmetrically for `b`.  Swap therefore
does not preserve the invariant that a container's comparator resolves
sequence numbers via that container's own Ledger. -/
theorem C10_swap_miswires_comparators (w : SwapWorld Key)
    (hA : w.cmpTargetA = LedgerSlot.inA) (hB : w.cmpTargetB = LedgerSlot.inB)
    (hsA : w.storeCmpTargetA = LedgerSlot.inA)
    (hsB : w.storeCmpTargetB = LedgerSlot.inB) :
    (swapMembers w).cmpTargetA = LedgerSlot.inB ∧
    (swapMembers w).cmpTargetB = LedgerSlot.inA ∧
    (swapMembers w).storeCmpTargetA = LedgerSlot.inB ∧
    (swapMembers w).storeCmpTargetB = LedgerSlot.inA ∧
    (swapMembers w).readSlot ((swapMembers w).cmpTargetA) =
      w.slotContentsA ∧
    (swapMembers w).readSlot ((swapMembers w).cmpTargetB) =
      w.slotContentsB := by
  refine ⟨?_, ?_, ?_, ?_, ?_, ?_⟩ <;>
    simp [swapMembers, SwapWorld.readSlot, hA, hB, hsA, hsB]

theorem C10_swap_miswires_comparators_witness :
    (SwapWorld.mk [("a", 0)] [("b", 0)] LedgerSlot.inA LedgerSlot.inB
        LedgerSlot.inA LedgerSlot.inB : SwapWorld String).cmpTargetA =
      LedgerSlot.inA ∧
    ((swapMembers (SwapWorld.mk [("a", 0)] [("b", 0)] LedgerSlot.inA
        LedgerSlot.inB LedgerSlot.inA LedgerSlot.inB)).cmpTargetA =
      LedgerSlot.inB ∧
    (swapMembers (SwapWorld.mk [("a", 0)] [("b", 0)] LedgerSlot.inA
        LedgerSlot.inB LedgerSlot.inA LedgerSlot.inB)).cmpTargetB =
      LedgerSlot.inA ∧
    (swapMembers (SwapWorld.mk [("a", 0)] [("b", 0)] LedgerSlot.inA
        LedgerSlot.inB LedgerSlot.inA LedgerSlot.inB)).storeCmpTargetA =
      LedgerSlot.inB ∧
    (swapMembers (SwapWorld.mk [("a", 0)] [("b", 0)] LedgerSlot.inA
        LedgerSlot.inB LedgerSlot.inA LedgerSlot.inB)).storeCmpTargetB =
      LedgerSlot.inA ∧
    (swapMembers (SwapWorld.mk [("a", 0)] [("b", 0)] LedgerSlot.inA
        LedgerSlot.inB LedgerSlot.inA
        LedgerSlot.inB)).readSlot ((swapMembers (SwapWorld.mk [("a", 0)]
          [("b", 0)] LedgerSlot.inA LedgerSlot.inB LedgerSlot.inA
          LedgerSlot.inB)).cmpTargetA) = [("a", 0)] ∧
    (swapMembers (SwapWorld.mk [("a", 0)] [("b", 0)] LedgerSlot.inA
        LedgerSlot.inB LedgerSlot.inA
        LedgerSlot.inB)).readSlot ((swapMembers (SwapWorld.mk [("a", 0)]
          [("b", 0)] LedgerSlot.inA LedgerSlot.inB LedgerSlot.inA
          LedgerSlot.inB)).cmpTargetB) = [("b", 0)]) :=
  ⟨rfl,
    C10_swap_miswires_comparators
      (SwapWorld.mk [("a", 0)] [("b", 0)] LedgerSlot.inA LedgerSlot.inB
        LedgerSlot.inA LedgerSlot.inB) rfl rfl rfl rfl⟩
